import Mathlib

/-!
Verification of the document-fetch-and-render pipeline of the
presentations repository (src/src/App.js and near-duplicate copies).

The embedding follows the source: the fetcher `docFetcher`, the render
function of the `App` component, the `code` entry of
`markdownComponents`, and the regular-expression dispatch on the
className of a fenced code block.  Behaviour that lives in library
collaborators absent from src (the request-keyed cache of the fetch
hook, the slug and table-of-contents remark plugins, the set of
languages the highlighter recognizes) is modelled from the spec, and
each such definition says so in its doc comment.
-/

/-! ## DocumentLoader: the fetch and its observable states -/

/-- Outcome of the browser fetch call issued by docFetcher: either the
fetch promise rejects (transport error), or it resolves with an HTTP
response carrying a status code, on which the text() call either
yields the decoded body or rejects (decoding error). -/
inductive FetchResult where
  | networkError (msg : String)
  | response (status : Nat) (text : Except String String)

/-- Embedding of docFetcher from src/src/App.js lines 44-47:
fetch(url).then(docPromise => docPromise.text()).  The status of the
resolved response is never inspected; the only failures are a rejected
fetch promise or a rejected text() call. -/
def docFetcher : FetchResult → Except String String
  | FetchResult.networkError m => Except.error m
  | FetchResult.response _ (Except.error m) => Except.error m
  | FetchResult.response _ (Except.ok body) => Except.ok body

/-- The three observable states of the document loader (spec section 3):
Pending before completion, Loaded with the body text on success,
Failed with an error on failure. -/
inductive DocumentState where
  | Pending
  | Loaded (content : String)
  | Failed (error : String)
deriving DecidableEq

/-- State the loader reaches once the fetch settles: the data of a
successful docFetcher becomes Loaded, a rejection becomes Failed. -/
def stateOfFetch (f : FetchResult) : DocumentState :=
  match docFetcher f with
  | Except.ok body => DocumentState.Loaded body
  | Except.error e => DocumentState.Failed e

/-- Data field the fetch hook hands to the component: present exactly in
the Loaded state. -/
def stateData : DocumentState → Option String
  | DocumentState.Loaded body => some body
  | _ => none

/-- Error field the fetch hook hands to the component: present exactly in
the Failed state. -/
def stateError : DocumentState → Option String
  | DocumentState.Failed e => some e
  | _ => none

/-! ## The App component render function -/

/-- The three shapes App can return: the pending div, the bare null of
the error branch, and the full document view wrapping ReactMarkdown. -/
inductive AppView where
  | loadingView
  | nullView
  | documentView (doc : String)
deriving DecidableEq

/-- Embedding of the App render body, src/src/App.js lines 49-83, as a
function of the data and error fields delivered by the fetch hook.
The returned list collects the console.error calls of this render
pass.  The first branch tests JavaScript falsiness of doc (undefined
or the empty string), before the error branch, exactly as in the
source: if (!doc) return loading; if (error) log and return null;
otherwise render the document through ReactMarkdown. -/
def App : Option String → Option String → AppView × List String
  | none, _ => (AppView.loadingView, [])
  | some s, e =>
    if s = "" then (AppView.loadingView, [])
    else
      match e with
      | some err => (AppView.nullView, [err])
      | none => (AppView.documentView s, [])

/-- App as seen from a settled loader state. -/
def AppOfState (st : DocumentState) : AppView × List String :=
  App (stateData st) (stateError st)

/-! ## The code entry of markdownComponents -/

/-- The newline character, code point 10, written by the source as the
regular expression \n in String(children).replace. -/
def newlineChar : Char := Char.ofNat 10

/-- Embedding of String(children).replace with the anchored newline
pattern, src/src/App.js line 33: in JavaScript the dollar anchor
without the multiline flag matches only at the very end of the input,
so the call removes exactly one trailing newline when one is present
and leaves the string unchanged otherwise. -/
def stripTrailingNewline (s : String) : String :=
  if s.data.getLast? = some newlineChar then String.mk s.data.dropLast else s

/-- A word character of the JavaScript regular-expression class,
ASCII letters, digits and underscore. -/
def wordChar (c : Char) : Bool := c.isAlphanum || c == '_'

/-- The literal characters of the string language- searched for by the
regular expression of src/src/App.js line 28. -/
def langTagChars : List Char := ['l', 'a', 'n', 'g', 'u', 'a', 'g', 'e', '-']

/-- Boolean list-prefix test used to scan for the language- literal. -/
def charsPrefix : List Char → List Char → Bool
  | [], _ => true
  | _ :: _, [] => false
  | a :: as, b :: bs => a == b && charsPrefix as bs

/-- Embedding of the exec call on the language regular expression,
src/src/App.js line 28: scan left to right for the first position
where the literal language- is followed by at least one word
character, and return the maximal word-character run after it (the
first capture group); return none when no position matches. -/
def langMatch : List Char → Option (List Char)
  | [] => none
  | c :: cs =>
    if charsPrefix langTagChars (c :: cs) then
      let cap := ((c :: cs).drop langTagChars.length).takeWhile wordChar
      if cap.isEmpty then langMatch cs else some cap
    else langMatch cs

/-- The two branches the code component can produce: hand the block to
the SyntaxHighlighter collaborator with a language and the newline
stripped text, or emit a plain code element with the original
className and children. -/
inductive CodeChoice where
  | highlighter (language : String) (text : String)
  | plainCode (className : Option String) (text : String)
deriving DecidableEq

/-- Embedding of the code entry of markdownComponents, src/src/App.js
lines 27-41: run the language regular expression on className (empty
string when absent); when not inline and the expression matched,
render the SyntaxHighlighter with the captured language and the
children with one trailing newline removed; otherwise render a plain
code element with the className and children unchanged. -/
def codeComponent (inline : Bool) (className : Option String)
    (children : String) : CodeChoice :=
  match langMatch (className.getD "").data with
  | some cap =>
    if inline then CodeChoice.plainCode className children
    else CodeChoice.highlighter (String.mk cap) (stripTrailingNewline children)
  | none => CodeChoice.plainCode className children

/-- Modelled from the spec: the set of language tags recognized by the
syntax-highlighting collaborator, which lives in the highlighter
library and is absent from src.  The spec names javascript as a
recognized tag and unknownlang123 as an unrecognized one; a few other
common tags stand in for the rest of the set.  Nothing in the source
component consults this set. -/
def recognizedLanguage (lang : String) : Bool :=
  lang ∈ ["javascript", "js", "jsx", "typescript", "css", "markup", "python"]

/-! ## Rendering a document through the component map -/

/-- Nodes of a parsed markdown document as handed to the component map
of ReactMarkdown: text-bearing nodes rendered by the default widgets,
and code nodes rendered by the code entry of markdownComponents. -/
inductive RenderNode where
  | textNode (text : String)
  | codeNode (inline : Bool) (className : Option String) (children : String)

/-- Widgets produced by rendering nodes. -/
inductive Widget where
  | textW (text : String)
  | highlightedW (language : String) (tokens : String)
  | plainW (className : Option String) (text : String)
deriving DecidableEq

/-- Rendering one node under a highlighter collaborator that may throw
(an Except.error result).  markdownComponents.code contains no
try/catch, so an exception raised by SyntaxHighlighter propagates out
of the node render unchanged. -/
def renderNode (hl : String → String → Except String String) :
    RenderNode → Except String Widget
  | RenderNode.textNode t => Except.ok (Widget.textW t)
  | RenderNode.codeNode inline cn ch =>
    match codeComponent inline cn ch with
    | CodeChoice.highlighter lang txt => (hl lang txt).map (Widget.highlightedW lang)
    | CodeChoice.plainCode c t => Except.ok (Widget.plainW c t)

/-- Rendering a document: the children render in order and an uncaught
exception from any child aborts the whole tree render, since App
installs no error boundary. -/
def renderDoc (hl : String → String → Except String String) :
    List RenderNode → Except String (List Widget)
  | [] => Except.ok []
  | n :: ns =>
    match renderNode hl n with
    | Except.error e => Except.error e
    | Except.ok w =>
      match renderDoc hl ns with
      | Except.error e => Except.error e
      | Except.ok ws => Except.ok (w :: ws)

/-- A highlighter collaborator whose grammar is malformed: it throws on
every block it is asked to tokenize. -/
def alwaysFailingHighlighter : String → String → Except String String :=
  fun _ _ => Except.error "malformed grammar"

/-- A two-node document: one fenced javascript block followed by a plain
paragraph of text. -/
def sampleDocWithBadBlock : List RenderNode :=
  [RenderNode.codeNode false (some "language-javascript") "let x = 1",
   RenderNode.textNode "hello"]

/-! ## Slug computation, modelled from the spec -/

/-- Little-endian decimal digits of a number, computed with structural
fuel so that concrete values reduce in the kernel; decDigits below
instantiates the fuel sufficiently. -/
def decDigitsAux : Nat → Nat → List Nat
  | _, 0 => []
  | 0, _ + 1 => []
  | fuel + 1, n + 1 => (n + 1) % 10 :: decDigitsAux fuel ((n + 1) / 10)

/-- Little-endian decimal digits of n. -/
def decDigits (n : Nat) : List Nat := decDigitsAux n n

/-- The character of a single decimal digit. -/
def digitChar (d : Nat) : Char := Char.ofNat (48 + d)

/-- Decimal numeral of a positive number; used for the numeric suffixes
2, 3, … that the slug transform appends, so the zero case (which
renders as the empty string) is never reached. -/
def decStr (n : Nat) : String := String.mk ((decDigits n).reverse.map digitChar)

/-- Collapse every run of adjacent hyphens to a single hyphen. -/
def collapseHyphens : List Char → List Char
  | [] => []
  | c :: cs =>
    match collapseHyphens cs with
    | [] => [c]
    | d :: ds => if c = '-' ∧ d = '-' then d :: ds else c :: d :: ds

/-- Modelled from the spec: the slug of a heading text as computed by the
remark-slug plugin, which is absent from src.  Spec section 4.2 step 2:
lowercase, whitespace and punctuation collapsed to hyphens.  The
truncation to a practical length mentioned there is left out: no claim
depends on it. -/
def slugify (s : String) : String :=
  String.mk (collapseHyphens
    (s.data.map (fun c => if c.isAlphanum then c.toLower else '-')))

/-- The numbered candidate ids base-2, base-3, …, base-(n+1) tried in
order when the bare id is taken. -/
def suffixCandidates (base : String) (n : Nat) : List String :=
  (List.range n).map (fun i => base ++ "-" ++ decStr (i + 2))

/-- First element of a list not occurring in used, scanning in order. -/
def firstNotMem (used : List String) : List String → Option String
  | [] => none
  | c :: cs => if c ∈ used then firstNotMem used cs else some c

/-- Modelled from the spec: collision resolution of the remark-slug
plugin, absent from src.  Spec section 4.2 step 2: if the id already
appears among ids computed earlier in document order, append -2, -3, …
until unique.  Scanning the first used.length + 1 numbered candidates
always finds a free one, so the search is total; the final fallback
arm is unreachable, as proved below. -/
def freshId (used : List String) (base : String) : String :=
  if base ∈ used then
    match firstNotMem used (suffixCandidates base (used.length + 1)) with
    | some c => c
    | none => base
  else base

/-- Ids assigned to a sequence of heading texts in document order, the
first argument accumulating the ids already given out. -/
def assignIds (used : List String) : List String → List String
  | [] => []
  | t :: ts =>
    let newId := freshId used (slugify t)
    newId :: assignIds (newId :: used) ts

/-- The stable ids of a document whose headings carry the given texts,
in document order. -/
def resolveIds (titles : List String) : List String := assignIds [] titles

/-! ## The document tree and the slug and toc transforms -/

/-- Blocks of the parsed markdown document before the transforms run:
headings with their level and text, paragraphs, fenced code blocks,
and the table-of-contents marker (spec section 3). -/
inductive MdBlock where
  | heading (level : Nat) (text : String)
  | paragraph (text : String)
  | codeBlock (lang : Option String) (text : String)
  | tocMarker
deriving DecidableEq

/-- Nodes after the transforms: headings now carry their stable id, and
the marker may have been replaced by the generated toc list of
(heading text, stable id) entries. -/
inductive DocNode where
  | headingN (level : Nat) (text : String) (ident : String)
  | paragraphN (text : String)
  | codeBlockN (lang : Option String) (text : String)
  | tocList (entries : List (String × String))
  | tocMarkerN
deriving DecidableEq

/-- Modelled from the spec: the slug transform of remark-slug, absent
from src; every heading receives a stable id computed by freshId
against the ids given out earlier in document order; other nodes pass
through unchanged. -/
def slugTransform (used : List String) : List MdBlock → List DocNode
  | [] => []
  | MdBlock.heading l t :: bs =>
    let newId := freshId used (slugify t)
    DocNode.headingN l t newId :: slugTransform (newId :: used) bs
  | MdBlock.paragraph t :: bs => DocNode.paragraphN t :: slugTransform used bs
  | MdBlock.codeBlock lg t :: bs =>
    DocNode.codeBlockN lg t :: slugTransform used bs
  | MdBlock.tocMarker :: bs => DocNode.tocMarkerN :: slugTransform used bs

/-- The toc entries of a document: the headings of levels 2 through 6,
in document order, each paired with its stable id. -/
def tocEntriesOf (ns : List DocNode) : List (String × String) :=
  ns.filterMap (fun n =>
    match n with
    | DocNode.headingN l t ident =>
      if 2 ≤ l ∧ l ≤ 6 then some (t, ident) else none
    | _ => none)

/-- Modelled from the spec: the toc transform of remark-toc, absent from
src; the first table-of-contents marker is replaced by the generated
list, later nodes are untouched, and a document with no marker passes
through unchanged. -/
def replaceFirstToc (entries : List (String × String)) :
    List DocNode → List DocNode
  | [] => []
  | DocNode.tocMarkerN :: ns => DocNode.tocList entries :: ns
  | n :: ns => n :: replaceFirstToc entries ns

/-- The whole transform pipeline of the renderer: slugs first, then the
toc generated from the slugged document. -/
def renderPipeline (doc : List MdBlock) : List DocNode :=
  replaceFirstToc (tocEntriesOf (slugTransform [] doc)) (slugTransform [] doc)

/-- The entries of the first toc list of a document, when one exists. -/
def tocOf : List DocNode → Option (List (String × String))
  | [] => none
  | DocNode.tocList es :: _ => some es
  | _ :: ns => tocOf ns

/-- A concrete document with a toc marker, one excluded level-1 title,
and three eligible headings, two of which share their text. -/
def sampleTocDoc : List MdBlock :=
  [MdBlock.heading 1 "Functional Programming",
   MdBlock.tocMarker,
   MdBlock.heading 2 "Intro",
   MdBlock.paragraph "body",
   MdBlock.heading 2 "Intro",
   MdBlock.heading 3 "Tradeoffs"]

/-! ## The request-keyed cache of the fetch hook, modelled from the spec -/

/-- Lookup of a request key in the cache, first match wins. -/
def cacheLookup (req : String) :
    List (String × Except String String) → Option (Except String String)
  | [] => none
  | (k, v) :: rest => if k = req then some v else cacheLookup req rest

/-- Modelled from the spec: the session state of the fetch hook (useSWR),
absent from src: a cache keyed by request identity together with the
log of network retrievals issued so far, newest first. -/
structure LoaderSession where
  cache : List (String × Except String String)
  calls : List String

/-- The session at the start: nothing cached, nothing fetched. -/
def emptySession : LoaderSession := ⟨[], []⟩

/-- Modelled from the spec: resolve of the DocumentLoader, absent from
src (src only passes docFetcher to the hook): a cached request is
answered from the cache with no network call; an uncached request
issues exactly one retrieval via the fetcher and caches the outcome. -/
def resolve (fetcher : String → Except String String) (s : LoaderSession)
    (req : String) : Except String String × LoaderSession :=
  match cacheLookup req s.cache with
  | some r => (r, s)
  | none => (fetcher req, ⟨(req, fetcher req) :: s.cache, req :: s.calls⟩)

/-- Resolving a sequence of requests in order, threading the session. -/
def resolveAll (fetcher : String → Except String String)
    (s : LoaderSession) : List String → LoaderSession
  | [] => s
  | r :: rs => resolveAll fetcher (resolve fetcher s r).2 rs

/-- Well-formedness of a session: no request was fetched twice, and the
fetch log and the cache know the same requests. -/
def SessionInv (s : LoaderSession) : Prop :=
  s.calls.Nodup ∧ ∀ k, k ∈ s.calls ↔ cacheLookup k s.cache ≠ none

/-! ## Theorems about the loader and the component -/

/-- C1 counterexample: an HTTP 500 response whose body decodes is turned
into the Loaded state carrying the error page text, never Failed,
because docFetcher never inspects the status. -/
theorem http500_loads_not_fails :
    stateOfFetch (FetchResult.response 500 (Except.ok "Internal Server Error"))
      = DocumentState.Loaded "Internal Server Error"
    ∧ ∀ e, stateOfFetch (FetchResult.response 500 (Except.ok "Internal Server Error"))
      ≠ DocumentState.Failed e := by
  refine ⟨rfl, ?_⟩
  intro e h
  exact DocumentState.noConfusion h

/-- C1 amended: a transport error or a decoding error yields Failed
carrying the underlying message (non-empty whenever the cause message
is), while a response whose body decodes yields Loaded of the body
text regardless of HTTP status, 500 included. -/
theorem docFetcher_state_classification (m body : String) (status : Nat)
    (hm : m ≠ "") :
    stateOfFetch (FetchResult.networkError m) = DocumentState.Failed m
    ∧ stateOfFetch (FetchResult.response status (Except.error m))
        = DocumentState.Failed m
    ∧ (∃ e, stateOfFetch (FetchResult.networkError m) = DocumentState.Failed e
        ∧ e ≠ "")
    ∧ stateOfFetch (FetchResult.response status (Except.ok body))
        = DocumentState.Loaded body := by
  exact ⟨rfl, rfl, ⟨m, rfl, hm⟩, rfl⟩

/-- Witness for docFetcher_state_classification at concrete inputs. -/
theorem docFetcher_state_classification_witness :
    stateOfFetch (FetchResult.networkError "connection refused")
      = DocumentState.Failed "connection refused"
    ∧ stateOfFetch (FetchResult.response 500 (Except.error "connection refused"))
        = DocumentState.Failed "connection refused"
    ∧ (∃ e, stateOfFetch (FetchResult.networkError "connection refused")
        = DocumentState.Failed e ∧ e ≠ "")
    ∧ stateOfFetch (FetchResult.response 500 (Except.ok "oops"))
        = DocumentState.Loaded "oops" :=
  docFetcher_state_classification "connection refused" "oops" 500 (by decide)

/-- C2 counterexample: a fetch that ends Failed (no data, an error)
renders the loading view and logs nothing, because the falsy-data
check precedes the error branch; no failed-to-load view is shown and
console.error is never reached. -/
theorem failed_state_shows_loading_and_logs_nothing :
    AppOfState (DocumentState.Failed "HTTP error 500")
      = (AppView.loadingView, []) := rfl

/-- C2 amended: in the Failed state with no loaded data nothing is
logged and the pending loading view is shown; the logging branch,
which returns null rather than any failed-to-load view, is reachable
only when truthy data accompanies the error. -/
theorem failed_state_render_behaviour (e s : String) (hs : s ≠ "") :
    AppOfState (DocumentState.Failed e) = (AppView.loadingView, [])
    ∧ App (some s) (some e) = (AppView.nullView, [e]) := by
  refine ⟨rfl, ?_⟩
  simp [App, hs]

/-- Witness for failed_state_render_behaviour at concrete inputs. -/
theorem failed_state_render_behaviour_witness :
    AppOfState (DocumentState.Failed "network down") = (AppView.loadingView, [])
    ∧ App (some "# doc") (some "network down")
        = (AppView.nullView, ["network down"]) :=
  failed_state_render_behaviour "network down" "# doc" (by decide)

/-- C3: the document renderer is reached only from the Loaded state:
whenever a render pass returns the documentView, the loader state was
Loaded with that exact (non-empty) content; Pending and Failed
short-circuit before ReactMarkdown. -/
theorem renderer_only_from_loaded (st : DocumentState) (s : String)
    (h : (AppOfState st).1 = AppView.documentView s) :
    st = DocumentState.Loaded s := by
  cases st with
  | Pending => simp [AppOfState, stateData, stateError, App] at h
  | Failed e => simp [AppOfState, stateData, stateError, App] at h
  | Loaded c =>
    by_cases hc : c = ""
    · subst hc
      simp [AppOfState, stateData, stateError, App] at h
    · simp only [AppOfState, stateData, stateError, App, hc, if_false] at h
      cases h
      rfl

/-- Witness for renderer_only_from_loaded at a concrete input. -/
theorem renderer_only_from_loaded_witness :
    DocumentState.Loaded "# title" = DocumentState.Loaded "# title" :=
  renderer_only_from_loaded (DocumentState.Loaded "# title") "# title" rfl

/-- C9: a successful fetch with an empty body renders the pending
loading view, never the renderer; at the component interface Loaded of
the empty string is indistinguishable from Pending, because the
discrimination tests only truthiness of the data value. -/
theorem empty_body_indistinguishable_from_pending :
    AppOfState (DocumentState.Loaded "") = (AppView.loadingView, [])
    ∧ AppOfState (DocumentState.Loaded "") = AppOfState DocumentState.Pending
    ∧ ∀ e, App (some "") e = App none e := by
  refine ⟨rfl, rfl, ?_⟩
  intro e
  rfl

/-! ## Helper lemmas about the language dispatch and newline stripping -/

lemma charsPrefix_append (p rest : List Char) :
    charsPrefix p (p ++ rest) = true := by
  induction p with
  | nil => rfl
  | cons a as ih => simp [charsPrefix, ih]

lemma langMatch_language_append (t : List Char) (h1 : t ≠ [])
    (h2 : ∀ c ∈ t, wordChar c) :
    langMatch (langTagChars ++ t) = some t := by
  have htake : t.takeWhile wordChar = t := List.takeWhile_eq_self_iff.mpr h2
  cases t with
  | nil => exact absurd rfl h1
  | cons c0 cs0 =>
    have hshape : langTagChars ++ (c0 :: cs0) =
        'l' :: ('a' :: 'n' :: 'g' :: 'u' :: 'a' :: 'g' :: 'e' :: '-' :: c0 :: cs0) := rfl
    rw [hshape, langMatch]
    have hpre : charsPrefix langTagChars
        ('l' :: ('a' :: 'n' :: 'g' :: 'u' :: 'a' :: 'g' :: 'e' :: '-' :: c0 :: cs0)) = true := by
      simpa [hshape] using charsPrefix_append langTagChars (c0 :: cs0)
    rw [hpre]
    simp only [langTagChars, List.length_cons, List.length_nil, List.drop, if_true]
    simp [htake]

lemma stripTrailingNewline_of_newline (s : String)
    (h : s.data.getLast? = some newlineChar) :
    (stripTrailingNewline s).data ++ [newlineChar] = s.data := by
  have hne : s.data ≠ [] := by
    intro h0
    rw [h0] at h
    simp at h
  have hlast : s.data.getLast hne = newlineChar := by
    have := List.getLast?_eq_getLast s.data hne
    rw [this] at h
    exact (Option.some.injEq _ _).mp h.symm ▸ ((Option.some.injEq _ _).mp h).symm
  simp only [stripTrailingNewline, h, if_pos]
  rw [← hlast]
  exact List.dropLast_append_getLast hne

lemma stripTrailingNewline_of_no_newline (s : String)
    (h : s.data.getLast? ≠ some newlineChar) :
    stripTrailingNewline s = s := by
  simp [stripTrailingNewline, h]

/-! ## Theorems about the code component -/

/-- C4 counterexample: a fenced block tagged with the unrecognized
language unknownlang123 is not rendered as a plain code element: the
dispatch routes it through the SyntaxHighlighter collaborator, because
the component tests only the regular expression on the className and
never consults the recognized-language set. -/
theorem unrecognized_language_routed_to_highlighter :
    recognizedLanguage "unknownlang123" = false
    ∧ codeComponent false (some "language-unknownlang123") "let x = 1"
        = CodeChoice.highlighter "unknownlang123" "let x = 1" := by
  exact ⟨rfl, rfl⟩

/-- C4 amended: the dispatch of markdownComponents.code depends only on
the regular-expression match, never on recognition: every non-inline
block whose className carries a language tag of word characters is
routed through the highlighter with that tag, recognized or not, while
blocks with no className and inline code render as a plain code
element; the dispatch is a total function and never throws. -/
theorem code_dispatch_ignores_recognition (tag : String)
    (h1 : tag.data ≠ []) (h2 : ∀ c ∈ tag.data, wordChar c) :
    (∀ children, codeComponent false (some ("language-" ++ tag)) children
        = CodeChoice.highlighter tag (stripTrailingNewline children))
    ∧ (∀ inline children, codeComponent inline none children
        = CodeChoice.plainCode none children)
    ∧ (∀ className children, codeComponent true (some className) children
        = CodeChoice.plainCode (some className) children) := by
  refine ⟨?_, ?_, ?_⟩
  · intro children
    have hm : langMatch
        ('l' :: 'a' :: 'n' :: 'g' :: 'u' :: 'a' :: 'g' :: 'e' :: '-' :: tag.data)
        = some tag.data := by
      have hshape : langTagChars ++ tag.data =
          'l' :: 'a' :: 'n' :: 'g' :: 'u' :: 'a' :: 'g' :: 'e' :: '-' :: tag.data := rfl
      rw [← hshape]
      exact langMatch_language_append tag.data h1 h2
    simp only [codeComponent, Option.getD_some, String.data_append]
    have hshape2 : ("language-").data ++ tag.data =
        'l' :: 'a' :: 'n' :: 'g' :: 'u' :: 'a' :: 'g' :: 'e' :: '-' :: tag.data := rfl
    rw [hshape2, hm]
    rfl
  · intro inline children
    rfl
  · intro className children
    cases hm : langMatch className.data with
    | none => simp [codeComponent, hm]
    | some cap => simp [codeComponent, hm]

/-- Witness for code_dispatch_ignores_recognition at concrete inputs. -/
theorem code_dispatch_ignores_recognition_witness :
    "javascript".data ≠ []
    ∧ (∀ c ∈ "javascript".data, wordChar c)
    ∧ codeComponent false (some ("language-" ++ "javascript")) "const a = 1"
        = CodeChoice.highlighter "javascript" (stripTrailingNewline "const a = 1") :=
  ⟨by decide, by decide,
    (code_dispatch_ignores_recognition "javascript" (by decide) (by decide)).1
      "const a = 1"⟩

/-- C5 counterexample: when the highlighter collaborator throws on the
single javascript block of a two-node document, the whole document
render aborts with the error: no widget list is produced, so the
second node is not rendered and no per-block fallback occurs. -/
theorem highlighter_error_blanks_document :
    renderDoc alwaysFailingHighlighter sampleDocWithBadBlock
      = Except.error "malformed grammar"
    ∧ ∀ ws, renderDoc alwaysFailingHighlighter sampleDocWithBadBlock
      ≠ Except.ok ws := by
  refine ⟨rfl, ?_⟩
  intro ws h
  rw [show renderDoc alwaysFailingHighlighter sampleDocWithBadBlock
      = Except.error "malformed grammar" from rfl] at h
  exact Except.noConfusion h

/-- C5 amended: markdownComponents.code contains no local error
handling, so an error thrown by the highlighter on any node of the
document propagates out of the whole document render: some error is
the result and no widget list is produced. -/
theorem highlighter_error_propagates
    (hl : String → String → Except String String)
    (ns : List RenderNode) (n : RenderNode) (e : String)
    (hmem : n ∈ ns) (herr : renderNode hl n = Except.error e) :
    ∃ msg, renderDoc hl ns = Except.error msg := by
  induction ns with
  | nil => cases hmem
  | cons head tail ih =>
    cases hmem with
    | head =>
      exact ⟨e, by simp [renderDoc, herr]⟩
    | tail _ hmem2 =>
      cases hh : renderNode hl head with
      | error e2 =>
        exact ⟨e2, by simp [renderDoc, hh]⟩
      | ok w =>
        obtain ⟨msg, hmsg⟩ := ih hmem2
        exact ⟨msg, by simp [renderDoc, hh, hmsg]⟩

/-- Witness for highlighter_error_propagates at concrete inputs. -/
theorem highlighter_error_propagates_witness :
    ∃ msg, renderDoc alwaysFailingHighlighter
      [RenderNode.codeNode false (some "language-javascript") "let y = 2",
       RenderNode.textNode "world"] = Except.error msg :=
  highlighter_error_propagates alwaysFailingHighlighter
    [RenderNode.codeNode false (some "language-javascript") "let y = 2",
     RenderNode.textNode "world"]
    (RenderNode.codeNode false (some "language-javascript") "let y = 2")
    "malformed grammar" (List.mem_cons_self _ _) rfl

/-- C10: whenever the code component routes a block to the highlighter,
the text handed over is the children with the trailing-newline strip
applied: when the children end in a newline exactly that one newline
is removed (appending it back restores the children verbatim), and
otherwise the text is character-for-character the children. -/
theorem highlighter_text_newline_stripped (inline : Bool)
    (cn : Option String) (ch lang txt : String)
    (h : codeComponent inline cn ch = CodeChoice.highlighter lang txt) :
    txt = stripTrailingNewline ch
    ∧ (ch.data.getLast? = some newlineChar →
        txt.data ++ [newlineChar] = ch.data)
    ∧ (ch.data.getLast? ≠ some newlineChar → txt = ch) := by
  have htxt : txt = stripTrailingNewline ch := by
    cases hm : langMatch (cn.getD "").data with
    | none => simp [codeComponent, hm] at h
    | some cap =>
      cases inline with
      | true => simp [codeComponent, hm] at h
      | false =>
        simp only [codeComponent, hm, Bool.false_eq_true, if_false] at h
        exact (CodeChoice.highlighter.injEq _ _ _ _).mp h |>.2 |>.symm
  refine ⟨htxt, ?_, ?_⟩
  · intro hnl
    rw [htxt]
    exact stripTrailingNewline_of_newline ch hnl
  · intro hnl
    rw [htxt]
    exact stripTrailingNewline_of_no_newline ch hnl

/-- Witness for highlighter_text_newline_stripped at concrete inputs. -/
theorem highlighter_text_newline_stripped_witness :
    "x = 1".data.getLast? ≠ some newlineChar ∧ "x = 1" = "x = 1" :=
  ⟨by decide,
    (highlighter_text_newline_stripped false (some "language-javascript")
      "x = 1" "javascript" "x = 1" rfl).2.2 (by decide)⟩

/-! ## Helper lemmas for the slug computation -/

lemma decDigitsAux_eq_digits :
    ∀ fuel n, n ≤ fuel → decDigitsAux fuel n = Nat.digits 10 n := by
  intro fuel
  induction fuel with
  | zero =>
    intro n hn
    interval_cases n
    simp [decDigitsAux]
  | succ fuel ih =>
    intro n hn
    cases n with
    | zero => simp [decDigitsAux]
    | succ m =>
      show (m + 1) % 10 :: decDigitsAux fuel ((m + 1) / 10) = _
      rw [Nat.digits_def' (by norm_num : (1 : ℕ) < 10) (Nat.succ_pos m)]
      congr 1
      apply ih
      have hdiv : (m + 1) / 10 < m + 1 :=
        Nat.div_lt_self (Nat.succ_pos m) (by norm_num)
      omega

lemma decDigits_eq (n : Nat) : decDigits n = Nat.digits 10 n :=
  decDigitsAux_eq_digits n n le_rfl

lemma decDigits_lt (n : Nat) : ∀ d ∈ decDigits n, d < 10 := by
  intro d hd
  rw [decDigits_eq] at hd
  exact Nat.digits_lt_base (by norm_num) hd

lemma digitChar_toNat (d : Nat) (h : d < 10) : (digitChar d).toNat = 48 + d := by
  interval_cases d <;> decide

lemma map_digitChar_inj {l1 l2 : List Nat} (h1 : ∀ d ∈ l1, d < 10)
    (h2 : ∀ d ∈ l2, d < 10) (h : l1.map digitChar = l2.map digitChar) :
    l1 = l2 := by
  have h3 := congrArg (List.map (fun c : Char => c.toNat - 48)) h
  rw [List.map_map, List.map_map] at h3
  have e1 : l1.map ((fun c : Char => c.toNat - 48) ∘ digitChar) = l1.map id :=
    List.map_congr_left (fun d hd => by
      simp [Function.comp, digitChar_toNat d (h1 d hd)])
  have e2 : l2.map ((fun c : Char => c.toNat - 48) ∘ digitChar) = l2.map id :=
    List.map_congr_left (fun d hd => by
      simp [Function.comp, digitChar_toNat d (h2 d hd)])
  rwa [e1, e2, List.map_id, List.map_id] at h3

lemma decStr_inj {a b : Nat} (h : decStr a = decStr b) : a = b := by
  have hd : (decDigits a).reverse.map digitChar
      = (decDigits b).reverse.map digitChar := by
    injection h
  have hrev : (decDigits a).reverse = (decDigits b).reverse :=
    map_digitChar_inj
      (fun d hd2 => decDigits_lt a d (List.mem_reverse.mp hd2))
      (fun d hd2 => decDigits_lt b d (List.mem_reverse.mp hd2)) hd
  have hdig : decDigits a = decDigits b := List.reverse_injective hrev
  rw [decDigits_eq, decDigits_eq] at hdig
  exact Nat.digits.injective 10 hdig

lemma string_append_cancel {s a b : String} (h : s ++ a = s ++ b) : a = b := by
  have h2 : (s ++ a).data = (s ++ b).data := congrArg String.data h
  rw [String.data_append, String.data_append] at h2
  exact String.ext (List.append_cancel_left h2)

lemma suffixCandidates_nodup (base : String) (n : Nat) :
    (suffixCandidates base n).Nodup := by
  apply List.Nodup.map ?_ (List.nodup_range n)
  intro i j hij
  have := decStr_inj (string_append_cancel hij)
  omega

lemma suffixCandidates_length (base : String) (n : Nat) :
    (suffixCandidates base n).length = n := by
  simp [suffixCandidates]

lemma firstNotMem_some_spec {used l : List String} {c : String}
    (h : firstNotMem used l = some c) : c ∉ used := by
  induction l with
  | nil => simp [firstNotMem] at h
  | cons a l ih =>
    by_cases ha : a ∈ used
    · simp only [firstNotMem, if_pos ha] at h
      exact ih h
    · simp only [firstNotMem, if_neg ha] at h
      cases h
      exact ha

lemma firstNotMem_none_spec {used l : List String}
    (h : firstNotMem used l = none) : ∀ c ∈ l, c ∈ used := by
  induction l with
  | nil => intro c hc; cases hc
  | cons a l ih =>
    by_cases ha : a ∈ used
    · simp only [firstNotMem, if_pos ha] at h
      intro c hc
      rcases List.mem_cons.mp hc with rfl | hc2
      · exact ha
      · exact ih h c hc2
    · simp only [firstNotMem, if_neg ha] at h
      cases h

lemma exists_fresh_candidate (used : List String) (base : String) :
    firstNotMem used (suffixCandidates base (used.length + 1)) ≠ none := by
  intro h
  have hall := firstNotMem_none_spec h
  have hnd := suffixCandidates_nodup base (used.length + 1)
  have hsub : (suffixCandidates base (used.length + 1)).toFinset
      ⊆ used.toFinset := by
    intro x hx
    rw [List.mem_toFinset] at hx ⊢
    exact hall x hx
  have hc1 := Finset.card_le_card hsub
  rw [List.toFinset_card_of_nodup hnd, suffixCandidates_length] at hc1
  have hc2 := List.toFinset_card_le used
  omega

lemma freshId_not_mem (used : List String) (base : String) :
    freshId used base ∉ used := by
  by_cases hb : base ∈ used
  · cases hfm : firstNotMem used (suffixCandidates base (used.length + 1)) with
    | none => exact absurd hfm (exists_fresh_candidate used base)
    | some c =>
      have hval : freshId used base = c := by
        simp [freshId, hb, hfm]
      rw [hval]
      exact firstNotMem_some_spec hfm
  · have hval : freshId used base = base := by
      simp [freshId, hb]
    rw [hval]
    exact hb

lemma assignIds_spec (ts : List String) : ∀ used,
    (assignIds used ts).Nodup ∧ ∀ x ∈ assignIds used ts, x ∉ used := by
  induction ts with
  | nil =>
    intro used
    exact ⟨List.nodup_nil, by intro x hx; cases hx⟩
  | cons t ts ih =>
    intro used
    obtain ⟨hnd, hdis⟩ := ih (freshId used (slugify t) :: used)
    refine ⟨?_, ?_⟩
    · rw [show assignIds used (t :: ts)
          = freshId used (slugify t)
            :: assignIds (freshId used (slugify t) :: used) ts from rfl,
        List.nodup_cons]
      exact ⟨fun hmem => hdis _ hmem (List.mem_cons_self _ _), hnd⟩
    · intro x hx
      rw [show assignIds used (t :: ts)
          = freshId used (slugify t)
            :: assignIds (freshId used (slugify t) :: used) ts from rfl] at hx
      rcases List.mem_cons.mp hx with rfl | hx2
      · exact freshId_not_mem used (slugify t)
      · intro hxu
        exact hdis x hx2 (List.mem_cons_of_mem _ hxu)

/-- C6: the stable ids computed for any sequence of heading texts are
pairwise distinct, and duplicates are resolved by appending -2, -3, …
in document order: three headings all reading Intro receive the ids
intro, intro-2 and intro-3. -/
theorem heading_ids_pairwise_distinct (titles : List String) :
    (resolveIds titles).Nodup
    ∧ resolveIds ["Intro", "Intro", "Intro"]
        = ["intro", "intro-2", "intro-3"] := by
  refine ⟨(assignIds_spec titles []).1, ?_⟩
  rfl

/-! ## Helper lemmas for the toc transform -/

lemma slugTransform_no_tocList (doc : List MdBlock) : ∀ used es,
    DocNode.tocList es ∉ slugTransform used doc := by
  induction doc with
  | nil => intro used es h; cases h
  | cons b bs ih =>
    intro used es h
    cases b with
    | heading l t =>
      rcases List.mem_cons.mp h with heq | hmem
      · exact DocNode.noConfusion heq
      · exact ih _ _ hmem
    | paragraph t =>
      rcases List.mem_cons.mp h with heq | hmem
      · exact DocNode.noConfusion heq
      · exact ih _ _ hmem
    | codeBlock lg t =>
      rcases List.mem_cons.mp h with heq | hmem
      · exact DocNode.noConfusion heq
      · exact ih _ _ hmem
    | tocMarker =>
      rcases List.mem_cons.mp h with heq | hmem
      · exact DocNode.noConfusion heq
      · exact ih _ _ hmem

lemma slugTransform_marker_mem (doc : List MdBlock) : ∀ used,
    MdBlock.tocMarker ∈ doc → DocNode.tocMarkerN ∈ slugTransform used doc := by
  induction doc with
  | nil => intro used h; cases h
  | cons b bs ih =>
    intro used h
    rcases List.mem_cons.mp h with heq | hmem
    · rw [← heq]
      exact List.mem_cons_self _ _
    · cases b with
      | heading l t => exact List.mem_cons_of_mem _ (ih _ hmem)
      | paragraph t => exact List.mem_cons_of_mem _ (ih _ hmem)
      | codeBlock lg t => exact List.mem_cons_of_mem _ (ih _ hmem)
      | tocMarker => exact List.mem_cons_self _ _

lemma slugTransform_heading_src (doc : List MdBlock) : ∀ used l t ident,
    DocNode.headingN l t ident ∈ slugTransform used doc →
    MdBlock.heading l t ∈ doc := by
  induction doc with
  | nil => intro used l t ident h; cases h
  | cons b bs ih =>
    intro used l t ident h
    cases b with
    | heading l2 t2 =>
      rcases List.mem_cons.mp h with heq | hmem
      · obtain ⟨rfl, rfl, -⟩ := (DocNode.headingN.injEq _ _ _ _ _ _).mp heq
        exact List.mem_cons_self _ _
      · exact List.mem_cons_of_mem _ (ih _ _ _ _ hmem)
    | paragraph t2 =>
      rcases List.mem_cons.mp h with heq | hmem
      · exact DocNode.noConfusion heq
      · exact List.mem_cons_of_mem _ (ih _ _ _ _ hmem)
    | codeBlock lg t2 =>
      rcases List.mem_cons.mp h with heq | hmem
      · exact DocNode.noConfusion heq
      · exact List.mem_cons_of_mem _ (ih _ _ _ _ hmem)
    | tocMarker =>
      rcases List.mem_cons.mp h with heq | hmem
      · exact DocNode.noConfusion heq
      · exact List.mem_cons_of_mem _ (ih _ _ _ _ hmem)

lemma tocOf_replaceFirst (es : List (String × String)) (ns : List DocNode) :
    DocNode.tocMarkerN ∈ ns → (∀ es2, DocNode.tocList es2 ∉ ns) →
    tocOf (replaceFirstToc es ns) = some es := by
  induction ns with
  | nil => intro h; cases h
  | cons n ns ih =>
    intro hmark hnotoc
    cases n with
    | tocMarkerN => rfl
    | tocList es2 => exact absurd (List.mem_cons_self _ _) (hnotoc es2)
    | headingN l t ident =>
      have hmark2 : DocNode.tocMarkerN ∈ ns := by
        rcases List.mem_cons.mp hmark with heq | h2
        · exact DocNode.noConfusion heq
        · exact h2
      exact ih hmark2 (fun es2 h2 => hnotoc es2 (List.mem_cons_of_mem _ h2))
    | paragraphN t =>
      have hmark2 : DocNode.tocMarkerN ∈ ns := by
        rcases List.mem_cons.mp hmark with heq | h2
        · exact DocNode.noConfusion heq
        · exact h2
      exact ih hmark2 (fun es2 h2 => hnotoc es2 (List.mem_cons_of_mem _ h2))
    | codeBlockN lg t =>
      have hmark2 : DocNode.tocMarkerN ∈ ns := by
        rcases List.mem_cons.mp hmark with heq | h2
        · exact DocNode.noConfusion heq
        · exact h2
      exact ih hmark2 (fun es2 h2 => hnotoc es2 (List.mem_cons_of_mem _ h2))

lemma tocEntriesOf_replaceFirst (es : List (String × String))
    (ns : List DocNode) :
    tocEntriesOf (replaceFirstToc es ns) = tocEntriesOf ns := by
  induction ns with
  | nil => rfl
  | cons n ns ih =>
    cases n with
    | tocMarkerN => rfl
    | tocList es2 =>
      simp only [replaceFirstToc, tocEntriesOf, List.filterMap_cons]
      simpa [tocEntriesOf] using ih
    | headingN l t ident =>
      by_cases hc : 2 ≤ l ∧ l ≤ 6
      · simp only [replaceFirstToc, tocEntriesOf, List.filterMap_cons, if_pos hc]
        simpa [tocEntriesOf] using ih
      · simp only [replaceFirstToc, tocEntriesOf, List.filterMap_cons, if_neg hc]
        simpa [tocEntriesOf] using ih
    | paragraphN t =>
      simp only [replaceFirstToc, tocEntriesOf, List.filterMap_cons]
      simpa [tocEntriesOf] using ih
    | codeBlockN lg t =>
      simp only [replaceFirstToc, tocEntriesOf, List.filterMap_cons]
      simpa [tocEntriesOf] using ih

lemma headingN_mem_replaceFirst (es : List (String × String))
    (ns : List DocNode) (l : Nat) (t ident : String)
    (h : DocNode.headingN l t ident ∈ ns) :
    DocNode.headingN l t ident ∈ replaceFirstToc es ns := by
  induction ns with
  | nil => cases h
  | cons n ns ih =>
    cases n with
    | tocMarkerN =>
      rcases List.mem_cons.mp h with heq | hmem
      · exact DocNode.noConfusion heq
      · exact List.mem_cons_of_mem _ hmem
    | tocList es2 =>
      rcases List.mem_cons.mp h with heq | hmem
      · exact DocNode.noConfusion heq
      · exact List.mem_cons_of_mem _ (ih hmem)
    | headingN l2 t2 i2 =>
      rcases List.mem_cons.mp h with heq | hmem
      · rw [heq]; exact List.mem_cons_self _ _
      · exact List.mem_cons_of_mem _ (ih hmem)
    | paragraphN t2 =>
      rcases List.mem_cons.mp h with heq | hmem
      · exact DocNode.noConfusion heq
      · exact List.mem_cons_of_mem _ (ih hmem)
    | codeBlockN lg t2 =>
      rcases List.mem_cons.mp h with heq | hmem
      · exact DocNode.noConfusion heq
      · exact List.mem_cons_of_mem _ (ih hmem)

lemma tocEntries_mem_heading {ns : List DocNode} {te : String × String}
    (h : te ∈ tocEntriesOf ns) :
    ∃ l, 2 ≤ l ∧ l ≤ 6 ∧ DocNode.headingN l te.1 te.2 ∈ ns := by
  simp only [tocEntriesOf] at h
  obtain ⟨n, hn, hfn⟩ := List.mem_filterMap.mp h
  cases n with
  | headingN l t ident =>
    have hfn2 : (if 2 ≤ l ∧ l ≤ 6 then some (t, ident) else none) = some te := hfn
    by_cases hc : 2 ≤ l ∧ l ≤ 6
    · rw [if_pos hc] at hfn2
      cases hfn2
      exact ⟨l, hc.1, hc.2, hn⟩
    · rw [if_neg hc] at hfn2
      cases hfn2
  | tocList es2 => cases hfn
  | tocMarkerN => cases hfn
  | paragraphN t => cases hfn
  | codeBlockN lg t => cases hfn

/-- C8: for every document containing the table-of-contents marker, the
generated toc is present and its entries are exactly the headings of
levels 2 through 6 of the transformed document, in document order,
each entry carrying the stable id of its heading; when the source
document has no heading of an eligible level the generated toc list is
empty rather than an error. -/
theorem toc_lists_exactly_eligible_headings (doc : List MdBlock)
    (hmark : MdBlock.tocMarker ∈ doc) :
    ∃ es, tocOf (renderPipeline doc) = some es
    ∧ es = tocEntriesOf (renderPipeline doc)
    ∧ (∀ te ∈ es, ∃ l, 2 ≤ l ∧ l ≤ 6
        ∧ DocNode.headingN l te.1 te.2 ∈ renderPipeline doc)
    ∧ ((∀ l t, MdBlock.heading l t ∈ doc → ¬(2 ≤ l ∧ l ≤ 6)) → es = []) := by
  refine ⟨tocEntriesOf (slugTransform [] doc), ?_, ?_, ?_, ?_⟩
  · exact tocOf_replaceFirst _ _ (slugTransform_marker_mem doc [] hmark)
      (fun es2 => slugTransform_no_tocList doc [] es2)
  · exact (tocEntriesOf_replaceFirst _ _).symm
  · intro te hte
    obtain ⟨l, h2, h6, hmem⟩ := tocEntries_mem_heading hte
    exact ⟨l, h2, h6, headingN_mem_replaceFirst _ _ _ _ _ hmem⟩
  · intro hno
    rw [List.eq_nil_iff_forall_not_mem]
    intro te hte
    obtain ⟨l, h2, h6, hmem⟩ := tocEntries_mem_heading hte
    exact hno l te.1 (slugTransform_heading_src doc [] l te.1 te.2 hmem) ⟨h2, h6⟩

/-- Witness for toc_lists_exactly_eligible_headings on the sample
document with a marker, a level-1 title and three eligible headings. -/
theorem toc_lists_exactly_eligible_headings_witness :
    ∃ es, tocOf (renderPipeline sampleTocDoc) = some es
    ∧ es = tocEntriesOf (renderPipeline sampleTocDoc)
    ∧ (∀ te ∈ es, ∃ l, 2 ≤ l ∧ l ≤ 6
        ∧ DocNode.headingN l te.1 te.2 ∈ renderPipeline sampleTocDoc)
    ∧ ((∀ l t, MdBlock.heading l t ∈ sampleTocDoc → ¬(2 ≤ l ∧ l ≤ 6)) →
        es = []) :=
  toc_lists_exactly_eligible_headings sampleTocDoc (by decide)

/-! ## Helper lemmas for the request-keyed cache -/

lemma sessionInv_empty : SessionInv emptySession := by
  refine ⟨List.nodup_nil, ?_⟩
  intro k
  simp [emptySession, cacheLookup]

lemma resolve_spec (f : String → Except String String) {s : LoaderSession}
    (hInv : SessionInv s) (req : String) :
    SessionInv (resolve f s req).2
    ∧ ∀ k, k ∈ (resolve f s req).2.calls ↔ k = req ∨ k ∈ s.calls := by
  obtain ⟨hnd, hmem⟩ := hInv
  cases hc : cacheLookup req s.cache with
  | some r =>
    have hs : (resolve f s req).2 = s := by simp [resolve, hc]
    rw [hs]
    refine ⟨⟨hnd, hmem⟩, ?_⟩
    intro k
    constructor
    · exact fun hk => Or.inr hk
    · intro hk
      rcases hk with rfl | hk
      · refine (hmem k).mpr ?_
        rw [hc]
        exact fun h0 => Option.noConfusion h0
      · exact hk
  | none =>
    have hreqnot : req ∉ s.calls := fun hk => ((hmem req).mp hk) hc
    have hs : (resolve f s req).2 = ⟨(req, f req) :: s.cache, req :: s.calls⟩ := by
      simp [resolve, hc]
    rw [hs]
    refine ⟨⟨List.nodup_cons.mpr ⟨hreqnot, hnd⟩, ?_⟩, ?_⟩
    · intro k
      constructor
      · intro hk
        rcases List.mem_cons.mp hk with rfl | hk2
        · simp [cacheLookup]
        · have hlk := (hmem k).mp hk2
          by_cases he : req = k
          · simp [cacheLookup, he]
          · simpa [cacheLookup, he] using hlk
      · intro hk
        by_cases he : k = req
        · exact he ▸ List.mem_cons_self _ _
        · have hlk : cacheLookup k s.cache ≠ none := by
            have hne : ¬(req = k) := fun h0 => he h0.symm
            simpa [cacheLookup, hne] using hk
          exact List.mem_cons_of_mem _ ((hmem k).mpr hlk)
    · intro k
      simp [List.mem_cons]

lemma resolveAll_spec (f : String → Except String String) :
    ∀ (rs : List String) (s : LoaderSession), SessionInv s →
    SessionInv (resolveAll f s rs)
    ∧ ∀ k, k ∈ (resolveAll f s rs).calls ↔ k ∈ s.calls ∨ k ∈ rs := by
  intro rs
  induction rs with
  | nil =>
    intro s h
    exact ⟨h, by simp [resolveAll]⟩
  | cons r rs ih =>
    intro s h
    obtain ⟨h1, h2⟩ := resolve_spec f h r
    obtain ⟨h3, h4⟩ := ih _ h1
    refine ⟨h3, ?_⟩
    intro k
    rw [show resolveAll f s (r :: rs) = resolveAll f (resolve f s r).2 rs
        from rfl]
    rw [h4 k, h2 k, List.mem_cons]
    tauto

/-- C7: the loader performs exactly one network retrieval per distinct
request over the lifetime of a session: a second resolve of an
identical request returns the cached result and changes nothing, a
session that resolves the same request twice logs a single network
call, and over any request sequence the number of network calls for a
request is one when it was ever requested and zero otherwise. -/
theorem resolve_single_fetch_per_request
    (f : String → Except String String) :
    (∀ s req, resolve f (resolve f s req).2 req
        = ((resolve f s req).1, (resolve f s req).2))
    ∧ (∀ req, (resolveAll f emptySession [req, req]).calls = [req])
    ∧ (∀ rs req, (resolveAll f emptySession rs).calls.count req
        = if req ∈ rs then 1 else 0) := by
  refine ⟨?_, ?_, ?_⟩
  · intro s req
    cases hc : cacheLookup req s.cache with
    | some r => simp [resolve, hc]
    | none => simp [resolve, hc, cacheLookup]
  · intro req
    simp [resolveAll, resolve, emptySession, cacheLookup]
  · intro rs req
    obtain ⟨hInv, hmem⟩ := resolveAll_spec f rs emptySession sessionInv_empty
    have hmem2 : ∀ k, k ∈ (resolveAll f emptySession rs).calls ↔ k ∈ rs := by
      intro k
      rw [hmem k]
      simp [emptySession]
    by_cases hr : req ∈ rs
    · rw [if_pos hr]
      have h1 : (resolveAll f emptySession rs).calls.count req ≤ 1 :=
        List.nodup_iff_count_le_one.mp hInv.1 req
      have h2 : 0 < (resolveAll f emptySession rs).calls.count req :=
        List.count_pos_iff.mpr ((hmem2 req).mpr hr)
      omega
    · rw [if_neg hr]
      exact List.count_eq_zero.mpr (fun hk => hr ((hmem2 req).mp hk))
